import Mathlib

/-!
Verification of the zos-apps/app-store registry engine (src/src/index.tsx).

The TypeScript source is shallowly embedded: each pure function is
translated to a Lean function; the asynchronous network layer is made
explicit by passing the fetch results as parameters; React state updates,
localStorage writes and dispatched window events are modelled as explicit
state passing over an `EngineState` record.
-/

namespace ZAppStore

/-- `AppManifest` from src/src/index.tsx (lines 360-373).  The `category`
field is a closed string union in TypeScript; it is carried here as a
string, matching its runtime representation.  `installable` and `main`
are optional fields. -/
structure AppManifest where
  id : String
  name : String
  version : String
  description : String
  icon : String
  category : String
  author : String
  repository : String
  minSdkVersion : String
  permissions : List String
  installable : Option Bool
  main : Option String
deriving DecidableEq, Repr

/-- `InstalledApp` from src/src/index.tsx (lines 375-379): an
`AppManifest` extended with installation metadata.  `source` is the
string union `bundled | github | local`, carried as a string. -/
structure InstalledApp extends AppManifest where
  installedAt : String
  installedVersion : String
  source : String
deriving DecidableEq, Repr

/-- `AppUpdate` from src/src/index.tsx (lines 381-386). -/
structure AppUpdate where
  id : String
  currentVersion : String
  latestVersion : String
  releaseNotes : Option String
deriving DecidableEq, Repr

/-! ## Version comparator (src/src/index.tsx lines 476-488) -/

/-- One step of decimal accumulation for `digitsToNat`. -/
def digitVal (c : Char) : Option Nat :=
  if c.isDigit then some (c.toNat - 48) else none

/-- Reads a decimal digit string left to right, `none` on any non-digit. -/
def digitsToNatAux : Nat → List Char → Option Nat
  | acc, [] => some acc
  | acc, c :: cs =>
    match digitVal c with
    | some d => digitsToNatAux (acc * 10 + d) cs
    | none => none

/-- Models `Number(s) || 0` as applied by `compareVersions` to one
dot-free version component: an optionally signed decimal digit string
yields its integer value, the empty string yields 0, and any other
string is `NaN`, which `|| 0` coalesces to 0.  (Exotic JavaScript
numeric forms — exponents, hex literals, surrounding whitespace,
values beyond 2^53 — are outside the modelled fragment; they do not
occur in version components.) -/
def jsNumOr0 (l : List Char) : Int :=
  match l with
  | '-' :: cs =>
    (match digitsToNatAux 0 cs with
     | some n => -(n : Int)
     | none => 0)
  | '+' :: cs =>
    (match digitsToNatAux 0 cs with
     | some n => (n : Int)
     | none => 0)
  | cs =>
    (match digitsToNatAux 0 cs with
     | some n => (n : Int)
     | none => 0)

/-- Models `String.prototype.split('.')`: `""` splits to `[""]`,
separators at the ends produce empty components. -/
def splitParts : List Char → List (List Char)
  | [] => [[]]
  | c :: cs =>
    if c = '.' then [] :: splitParts cs
    else
      match splitParts cs with
      | p :: ps => (c :: p) :: ps
      | [] => [[c]]

/-- Component `i` of a version string: `parts[i] || 0` where
`parts = v.split('.').map(Number)`; an out-of-range index reads
`undefined`, coalesced to 0. -/
def verComponent (v : String) (i : Nat) : Int :=
  match (splitParts v.data).get? i with
  | some p => jsNumOr0 p
  | none => 0

/-- The `for (let i = 0; i < 3; i++)` loop of `compareVersions`,
with its early returns: `i` is the current index, the second argument
the number of iterations left. -/
def cvFrom (v1 v2 : String) : Nat → Nat → Int
  | _, 0 => 0
  | i, k + 1 =>
    let p1 := verComponent v1 i
    let p2 := verComponent v2 i
    if p1 < p2 then -1
    else if p2 < p1 then 1
    else cvFrom v1 v2 (i + 1) k

/-- `compareVersions` from src/src/index.tsx lines 476-488: splits each
input on `.`, maps each component through `Number`, and compares the
first three components numerically with missing/non-numeric components
read as 0. -/
def compareVersions (v1 v2 : String) : Int :=
  cvFrom v1 v2 0 3

theorem cvFrom_mem (v1 v2 : String) (i k : Nat) :
    cvFrom v1 v2 i k = -1 ∨ cvFrom v1 v2 i k = 0 ∨ cvFrom v1 v2 i k = 1 := by
  induction k generalizing i with
  | zero => simp [cvFrom]
  | succ k ih =>
    simp only [cvFrom]
    split
    · exact Or.inl rfl
    · split
      · exact Or.inr (Or.inr rfl)
      · exact ih (i + 1)

theorem cvFrom_refl (v : String) (i k : Nat) :
    cvFrom v v i k = 0 := by
  induction k generalizing i with
  | zero => simp [cvFrom]
  | succ k ih =>
    simp only [cvFrom, lt_irrefl, if_false]
    exact ih (i + 1)

/-- C5: `compareVersions` is total on arbitrary strings, always returns a
value in \x7b-1, 0, 1\x7d, satisfies `compareVersions a a = 0` for every
string `a`, and on the spec's sample inputs returns
`compareVersions "1.2.0" "1.10.0" = -1` (numeric, not lexicographic),
`compareVersions "2" "2.0.0" = 0` (missing components default to 0), and
`compareVersions "1.2.3" "1.2" = 1`. -/
theorem c5_compareVersions_total_order_samples :
    (∀ a b : String,
        compareVersions a b = -1 ∨ compareVersions a b = 0 ∨ compareVersions a b = 1)
    ∧ (∀ a : String, compareVersions a a = 0)
    ∧ compareVersions "1.2.0" "1.10.0" = -1
    ∧ compareVersions "2" "2.0.0" = 0
    ∧ compareVersions "1.2.3" "1.2" = 1 := by
  refine ⟨fun a b => cvFrom_mem a b 0 3, fun a => cvFrom_refl a 0 3, ?_, ?_, ?_⟩
  · decide
  · decide
  · decide

/-! ## Update detection (src/src/index.tsx lines 450-471) -/

/-- Models `availableApps.find(a => a.id === installed.id)`: the first
manifest in the listing whose `id` equals `x`. -/
def findById : List AppManifest → String → Option AppManifest
  | [], _ => none
  | a :: rest, x => if a.id = x then some a else findById rest x

/-- The update record pushed by `checkForUpdates`
(`releaseNotes` is never set by the source). -/
def mkUpdate (ins : InstalledApp) (av : AppManifest) : AppUpdate :=
  { id := ins.id
    currentVersion := ins.installedVersion
    latestVersion := av.version
    releaseNotes := none }

/-- `checkForUpdates` from src/src/index.tsx lines 450-471.  The
asynchronous `fetchZosApps()` result is passed in as the `available`
parameter; the loop body pushes an update exactly when a manifest with
the installed id exists and compares strictly newer. -/
def checkForUpdates : List InstalledApp → List AppManifest → List AppUpdate
  | [], _ => []
  | ins :: rest, available =>
    match findById available ins.id with
    | some av =>
      if compareVersions ins.installedVersion av.version < 0 then
        mkUpdate ins av :: checkForUpdates rest available
      else
        checkForUpdates rest available
    | none => checkForUpdates rest available

theorem findById_mem {l : List AppManifest} {x : String} {a : AppManifest}
    (h : findById l x = some a) : a ∈ l ∧ a.id = x := by
  induction l with
  | nil => simp [findById] at h
  | cons b rest ih =>
    by_cases hb : b.id = x
    · simp only [findById, if_pos hb, Option.some.injEq] at h
      rw [← h]
      exact ⟨List.mem_cons_self b rest, hb⟩
    · simp only [findById, if_neg hb] at h
      obtain ⟨hm, hx⟩ := ih h
      exact ⟨List.mem_cons_of_mem b hm, hx⟩

theorem findById_of_mem {l : List AppManifest} {x : String} {m : AppManifest}
    (hnd : (l.map (fun a => a.id)).Nodup) (hm : m ∈ l) (hx : m.id = x) :
    findById l x = some m := by
  induction l with
  | nil => simp at hm
  | cons b rest ih =>
    simp only [List.map_cons, List.nodup_cons] at hnd
    rcases List.mem_cons.mp hm with hb | hrest
    · subst hb
      simp [findById, hx]
    · have hbx : b.id ≠ x := by
        intro hbid
        exact hnd.1 (by
          rw [hbid, ← hx]
          exact List.mem_map.mpr ⟨m, hrest, rfl⟩)
      simp only [findById, if_neg hbx]
      exact ih hnd.2 hrest

theorem checkForUpdates_cons_none {ins : InstalledApp} {rest : List InstalledApp}
    {available : List AppManifest} (h : findById available ins.id = none) :
    checkForUpdates (ins :: rest) available = checkForUpdates rest available := by
  simp [checkForUpdates, h]

theorem checkForUpdates_cons_lt {ins : InstalledApp} {rest : List InstalledApp}
    {available : List AppManifest} {av : AppManifest}
    (h : findById available ins.id = some av)
    (hc : compareVersions ins.installedVersion av.version < 0) :
    checkForUpdates (ins :: rest) available =
      mkUpdate ins av :: checkForUpdates rest available := by
  simp [checkForUpdates, h, hc]

theorem checkForUpdates_cons_ge {ins : InstalledApp} {rest : List InstalledApp}
    {available : List AppManifest} {av : AppManifest}
    (h : findById available ins.id = some av)
    (hc : ¬ compareVersions ins.installedVersion av.version < 0) :
    checkForUpdates (ins :: rest) available = checkForUpdates rest available := by
  simp [checkForUpdates, h, hc]

theorem mem_checkForUpdates {installed : List InstalledApp}
    {available : List AppManifest} {u : AppUpdate} :
    u ∈ checkForUpdates installed available ↔
      ∃ ins ∈ installed, ∃ av,
        findById available ins.id = some av ∧
        compareVersions ins.installedVersion av.version < 0 ∧
        u = mkUpdate ins av := by
  induction installed with
  | nil => simp [checkForUpdates]
  | cons ins rest ih =>
    constructor
    · intro hu
      rcases hfind : findById available ins.id with _ | av
      · rw [checkForUpdates_cons_none hfind] at hu
        obtain ⟨i0, hi0, hrest⟩ := ih.mp hu
        exact ⟨i0, List.mem_cons_of_mem ins hi0, hrest⟩
      · by_cases hcmp : compareVersions ins.installedVersion av.version < 0
        · rw [checkForUpdates_cons_lt hfind hcmp] at hu
          rcases List.mem_cons.mp hu with heq | htail
          · exact ⟨ins, List.mem_cons_self ins rest, av, hfind, hcmp, heq⟩
          · obtain ⟨i0, hi0, hrest⟩ := ih.mp htail
            exact ⟨i0, List.mem_cons_of_mem ins hi0, hrest⟩
        · rw [checkForUpdates_cons_ge hfind hcmp] at hu
          obtain ⟨i0, hi0, hrest⟩ := ih.mp hu
          exact ⟨i0, List.mem_cons_of_mem ins hi0, hrest⟩
    · rintro ⟨i0, hi0, av, hfind, hcmp, hu⟩
      rcases List.mem_cons.mp hi0 with heq | htail
      · subst heq
        rw [checkForUpdates_cons_lt hfind hcmp, hu]
        exact List.mem_cons_self _ _
      · have hmem : u ∈ checkForUpdates rest available :=
          ih.mpr ⟨i0, htail, av, hfind, hcmp, hu⟩
        rcases hf : findById available ins.id with _ | av2
        · rw [checkForUpdates_cons_none hf]
          exact hmem
        · by_cases hc2 : compareVersions ins.installedVersion av2.version < 0
          · rw [checkForUpdates_cons_lt hf hc2]
            exact List.mem_cons_of_mem _ hmem
          · rw [checkForUpdates_cons_ge hf hc2]
            exact hmem

/-- C4: with the spec's uniqueness invariants on the installed set and the
discover listing, the candidate set computed by `checkForUpdates` contains
an entry for id `X` exactly when `X` is installed, a remote manifest with
id `X` exists, and `compareVersions installedVersion version < 0`; the
entry carries `currentVersion` equal to the installed record's
`installedVersion` and `latestVersion` equal to the remote manifest's
`version`. -/
theorem c4_update_candidates_iff (installed : List InstalledApp)
    (available : List AppManifest) (X : String)
    (hI : (installed.map (fun r => r.id)).Nodup)
    (hA : (available.map (fun m => m.id)).Nodup) :
    ((∃ u ∈ checkForUpdates installed available, u.id = X) ↔
      ∃ r ∈ installed, r.id = X ∧ ∃ m ∈ available, m.id = X ∧
        compareVersions r.installedVersion m.version < 0)
    ∧ (∀ u ∈ checkForUpdates installed available, ∀ r ∈ installed, r.id = u.id →
        ∀ m ∈ available, m.id = u.id →
        u.currentVersion = r.installedVersion ∧ u.latestVersion = m.version) := by
  constructor
  · constructor
    · rintro ⟨u, hu, hid⟩
      obtain ⟨ins, hins, av, hfind, hcmp, hu_eq⟩ := mem_checkForUpdates.mp hu
      obtain ⟨hav_mem, hav_id⟩ := findById_mem hfind
      have hins_id : ins.id = X := by
        rw [← hid, hu_eq]; rfl
      exact ⟨ins, hins, hins_id, av, hav_mem, by rw [hav_id, hins_id], hcmp⟩
    · rintro ⟨r, hr, hrid, m, hm, hmid, hcmp⟩
      have hfind : findById available r.id = some m :=
        findById_of_mem hA hm (by rw [hmid, hrid])
      refine ⟨mkUpdate r m, mem_checkForUpdates.mpr ⟨r, hr, m, hfind, hcmp, rfl⟩, hrid⟩
  · intro u hu r hr hrid m hm hmid
    obtain ⟨ins, hins, av, hfind, hcmp, hu_eq⟩ := mem_checkForUpdates.mp hu
    obtain ⟨hav_mem, hav_id⟩ := findById_mem hfind
    have huid : u.id = ins.id := by rw [hu_eq]; rfl
    have hr_eq : r = ins :=
      List.inj_on_of_nodup_map hI hr hins (by rw [hrid, huid])
    have hm_eq : m = av :=
      List.inj_on_of_nodup_map hA hm hav_mem (by rw [hmid, huid, hav_id])
    subst hr_eq hm_eq hu_eq
    exact ⟨rfl, rfl⟩

/-! ## Discovery (src/src/index.tsx lines 396-445) -/

/-- The `zos` marker section of a repository's `package.json`
(README "Package Spec"); every field may be absent. -/
structure ZosMeta where
  id : Option String
  name : Option String
  icon : Option String
  category : Option String
  minSdkVersion : Option String
  permissions : Option (List String)
  installable : Option Bool
deriving DecidableEq, Repr

/-- The parts of a repository's `package.json` read by `fetchZosApps`. -/
structure Pkg where
  zos : Option ZosMeta
  name : Option String
  version : Option String
  description : Option String
  author : Option String
  main : Option String
deriving DecidableEq, Repr

/-- A repository returned by the organization listing; only its name is
read by the source. -/
structure Repo where
  name : String
deriving DecidableEq, Repr

/-- Outcome of fetching one repository's `package.json`: the fetch (or
the JSON parse) threw, the response was not ok, or a package object was
obtained. -/
inductive FetchOutcome where
  | throws : FetchOutcome
  | notOk : FetchOutcome
  | ok : Pkg → FetchOutcome
deriving DecidableEq, Repr

/-- Models the JavaScript `a || b` default for string-valued fields:
`undefined` and the empty string are falsy. -/
def strOrElse (a : Option String) (b : String) : String :=
  match a with
  | some s => if s = "" then b else s
  | none => b

/-- Does `l` start with the pattern `pat`? -/
def listStartsWith : List Char → List Char → Bool
  | [], _ => true
  | _ :: _, [] => false
  | p :: ps, c :: cs => p = c && listStartsWith ps cs

/-- Remove the first occurrence of `pat` from the character list. -/
def replaceFirstAux (pat : List Char) : List Char → List Char
  | [] => []
  | c :: cs =>
    if listStartsWith pat (c :: cs) then List.drop pat.length (c :: cs)
    else c :: replaceFirstAux pat cs

/-- Models `s.replace('@zos-apps/', '')`: JavaScript `replace` with a
string pattern removes only the first occurrence. -/
def replaceFirst (s pat : String) : String :=
  if pat = "" then s else String.mk (replaceFirstAux pat.data s.data)

/-- Models `repo.name.startsWith('.')`. -/
def startsWithDot (s : String) : Bool :=
  match s.data with
  | [] => false
  | c :: _ => c = '.'

/-- The manifest object pushed by `fetchZosApps` for a repository whose
package declares a `zos` section (src/src/index.tsx lines 419-432),
with the source's field defaults.  (`üì¶` is the default icon byte
sequence as it appears in the source file.) -/
def repoManifest (repoName : String) (pkg : Pkg) (z : ZosMeta) : AppManifest :=
  { id := strOrElse z.id ("ai.hanzo." ++ repoName)
    name := strOrElse z.name
      (strOrElse (pkg.name.map (fun n => replaceFirst n "@zos-apps/")) repoName)
    version := strOrElse pkg.version "1.0.0"
    description := strOrElse pkg.description ""
    icon := strOrElse z.icon "üì¶"
    category := strOrElse z.category "utilities"
    author := strOrElse pkg.author "Hanzo AI"
    repository := "https://github.com/zos-apps/" ++ repoName
    minSdkVersion := strOrElse z.minSdkVersion "4.0.0"
    permissions := z.permissions.getD []
    installable := some (z.installable ≠ some false)
    main := some (strOrElse pkg.main "src/index.tsx") }

/-- The `for (const repo of repos)` loop of `fetchZosApps`: dot-prefixed
repository names are skipped; a per-repository fetch failure or a
not-ok response is swallowed by the inner `try`/`catch` and contributes
no manifest; a package without a `zos` section contributes no manifest. -/
def discoverLoop (fetchPkg : String → FetchOutcome) : List Repo → List AppManifest
  | [] => []
  | r :: rest =>
    if startsWithDot r.name then discoverLoop fetchPkg rest
    else
      match fetchPkg r.name with
      | FetchOutcome.ok pkg =>
        match pkg.zos with
        | some z => repoManifest r.name pkg z :: discoverLoop fetchPkg rest
        | none => discoverLoop fetchPkg rest
      | _ => discoverLoop fetchPkg rest

/-- `fetchZosApps` from src/src/index.tsx lines 396-445.  The network is
made explicit: `listing` is the organization repository listing (`none`
when the top-level fetch failed or its JSON could not be parsed — the
outer `catch` then returns `[]`), and `fetchPkg` gives the outcome of
fetching each repository's `package.json`. -/
def fetchZosApps (listing : Option (List Repo))
    (fetchPkg : String → FetchOutcome) : List AppManifest :=
  match listing with
  | none => []
  | some repos => discoverLoop fetchPkg repos

theorem discoverLoop_append (fetchPkg : String → FetchOutcome)
    (l1 l2 : List Repo) :
    discoverLoop fetchPkg (l1 ++ l2) =
      discoverLoop fetchPkg l1 ++ discoverLoop fetchPkg l2 := by
  induction l1 with
  | nil => simp [discoverLoop]
  | cons r rest ih =>
    by_cases hdot : startsWithDot r.name
    · simp [discoverLoop, hdot, ih]
    · rcases hf : fetchPkg r.name with _ | _ | pkg
      · simp [discoverLoop, hdot, hf, ih]
      · simp [discoverLoop, hdot, hf, ih]
      · rcases hz : pkg.zos with _ | z
        · simp [discoverLoop, hdot, hf, hz, ih]
        · simp [discoverLoop, hdot, hf, hz, ih]

/-- C6: a failing per-repository fetch is swallowed — the failed
repository contributes no manifest and every other repository's result
is unaffected — and every repository whose fetch succeeded (non-dot
name, ok response, `zos` section present) contributes its manifest;
when the top-level repository listing fetch fails, discovery returns
the empty sequence (the function is total: nothing escapes the engine
boundary). -/
theorem c6_discovery_partial_failure (fetchPkg : String → FetchOutcome) :
    (fetchZosApps none fetchPkg = [])
    ∧ (∀ (pre post : List Repo) (r : Repo),
        (fetchPkg r.name = FetchOutcome.throws ∨ fetchPkg r.name = FetchOutcome.notOk) →
        fetchZosApps (some (pre ++ r :: post)) fetchPkg =
          fetchZosApps (some (pre ++ post)) fetchPkg)
    ∧ (∀ (repos : List Repo) (r : Repo) (pkg : Pkg) (z : ZosMeta),
        r ∈ repos → ¬ startsWithDot r.name →
        fetchPkg r.name = FetchOutcome.ok pkg → pkg.zos = some z →
        repoManifest r.name pkg z ∈ fetchZosApps (some repos) fetchPkg) := by
  refine ⟨rfl, ?_, ?_⟩
  · intro pre post r hfail
    have hr : discoverLoop fetchPkg [r] = [] := by
      rcases hfail with hf | hf
      · by_cases hdot : startsWithDot r.name
        · simp [discoverLoop, hdot]
        · simp [discoverLoop, hdot, hf]
      · by_cases hdot : startsWithDot r.name
        · simp [discoverLoop, hdot]
        · simp [discoverLoop, hdot, hf]
    show discoverLoop fetchPkg (pre ++ r :: post) = discoverLoop fetchPkg (pre ++ post)
    have : pre ++ r :: post = pre ++ [r] ++ post := by simp
    rw [this, discoverLoop_append, discoverLoop_append, hr,
      discoverLoop_append]
    simp
  · intro repos r pkg z hmem hdot hok hz
    induction repos with
    | nil => simp at hmem
    | cons r0 rest ih =>
      rcases List.mem_cons.mp hmem with heq | htail
      · subst heq
        show repoManifest r.name pkg z ∈ discoverLoop fetchPkg (r :: rest)
        simp [discoverLoop, hdot, hok, hz]
      · have hsub : repoManifest r.name pkg z ∈ discoverLoop fetchPkg rest :=
          ih htail
        show repoManifest r.name pkg z ∈ discoverLoop fetchPkg (r0 :: rest)
        by_cases hdot0 : startsWithDot r0.name
        · simpa [discoverLoop, hdot0] using hsub
        · rcases hf0 : fetchPkg r0.name with _ | _ | pkg0
          · simpa [discoverLoop, hdot0, hf0] using hsub
          · simpa [discoverLoop, hdot0, hf0] using hsub
          · rcases hz0 : pkg0.zos with _ | z0
            · simpa [discoverLoop, hdot0, hf0, hz0] using hsub
            · simp [discoverLoop, hdot0, hf0, hz0]
              exact Or.inr hsub

/-! ## Combining bundled and discovered manifests
(registry-based variant, src/src/index.tsx lines 38-45) -/

/-- One iteration of the combine loop: `app` is appended only when no
already-collected manifest has its id
(`!allApps.some(a => a.id === app.id)`). -/
def mergeStep (allApps : List AppManifest) (app : AppManifest) : List AppManifest :=
  if allApps.any (fun a => a.id == app.id) then allApps else allApps ++ [app]

/-- The combine step of the registry-based `loadData`
(src/src/index.tsx lines 38-45): start from `BUNDLED_APPS` and push each
fetched app whose id is not yet present. -/
def mergeApps (bundled githubApps : List AppManifest) : List AppManifest :=
  githubApps.foldl mergeStep bundled

theorem mergeApps_prefix (githubApps : List AppManifest) :
    ∀ acc : List AppManifest, ∃ rest, githubApps.foldl mergeStep acc = acc ++ rest := by
  induction githubApps with
  | nil => exact fun acc => ⟨[], by simp⟩
  | cons g gs ih =>
    intro acc
    simp only [List.foldl_cons]
    by_cases h : acc.any (fun a => a.id == g.id)
    · obtain ⟨rest, hrest⟩ := ih acc
      exact ⟨rest, by rw [mergeStep, if_pos h, hrest]⟩
    · obtain ⟨rest, hrest⟩ := ih (acc ++ [g])
      exact ⟨[g] ++ rest, by rw [mergeStep, if_neg h, hrest, List.append_assoc]⟩

theorem mergeApps_nodup (githubApps : List AppManifest) :
    ∀ acc : List AppManifest, (acc.map (fun a => a.id)).Nodup →
      ((githubApps.foldl mergeStep acc).map (fun a => a.id)).Nodup := by
  induction githubApps with
  | nil => exact fun acc h => h
  | cons g gs ih =>
    intro acc hacc
    simp only [List.foldl_cons]
    by_cases h : acc.any (fun a => a.id == g.id)
    · rw [mergeStep, if_pos h]
      exact ih acc hacc
    · rw [mergeStep, if_neg h]
      refine ih (acc ++ [g]) ?_
      rw [List.map_append, List.map_singleton]
      refine List.Nodup.append hacc (List.nodup_singleton _) ?_
      intro x hx hg
      rcases List.mem_map.mp hx with ⟨a, ha, hax⟩
      have hx_eq : x = g.id := List.mem_singleton.mp hg
      exact h (List.any_eq_true.mpr ⟨a, ha, beq_iff_eq.mpr (hax.trans hx_eq)⟩)

theorem mergeApps_covers (githubApps : List AppManifest) :
    ∀ acc : List AppManifest, ∀ g ∈ githubApps,
      ∃ a ∈ githubApps.foldl mergeStep acc, a.id = g.id := by
  induction githubApps with
  | nil => intro acc g hg; simp at hg
  | cons g0 gs ih =>
    intro acc g hg
    simp only [List.foldl_cons]
    rcases List.mem_cons.mp hg with rfl | htail
    · by_cases h : acc.any (fun a => a.id == g.id)
      · obtain ⟨a, ha, haid⟩ := List.any_eq_true.mp h
        obtain ⟨rest, hrest⟩ := mergeApps_prefix gs (mergeStep acc g)
        refine ⟨a, ?_, beq_iff_eq.mp haid⟩
        rw [hrest, mergeStep, if_pos h]
        exact List.mem_append_left _ ha
      · obtain ⟨rest, hrest⟩ := mergeApps_prefix gs (mergeStep acc g)
        refine ⟨g, ?_, rfl⟩
        rw [hrest, mergeStep, if_neg h]
        exact List.mem_append_left _ (List.mem_append_right _ (List.mem_singleton_self g))
    · exact ih (mergeStep acc g0) g htail

theorem mergeApps_sources (githubApps : List AppManifest) :
    ∀ acc : List AppManifest, ∀ a ∈ githubApps.foldl mergeStep acc,
      a ∈ acc ∨ a ∈ githubApps := by
  induction githubApps with
  | nil => intro acc a ha; exact Or.inl ha
  | cons g gs ih =>
    intro acc a ha
    simp only [List.foldl_cons] at ha
    rcases ih (mergeStep acc g) a ha with hstep | hgs
    · rw [mergeStep] at hstep
      by_cases h : acc.any (fun a => a.id == g.id)
      · rw [if_pos h] at hstep
        exact Or.inl hstep
      · rw [if_neg h] at hstep
        rcases List.mem_append.mp hstep with hacc | hg
        · exact Or.inl hacc
        · exact Or.inr (List.mem_cons.mpr (Or.inl (List.mem_singleton.mp hg)))
    · exact Or.inr (List.mem_cons_of_mem g hgs)

/-- C7 (amended): the registry-based variant's combine step
(src/src/index.tsx lines 38-45) does produce an id-unique listing with
first-seen/bundled-first precedence: given id-unique bundled manifests,
the combined listing has pairwise distinct ids, starts with the bundled
manifests unchanged (bundled precedence), represents the id of every
fetched manifest, and contains only bundled or fetched manifests.  The
standalone variant's `loadData` (lines 532-553) applies no
de-duplication — its available listing is the raw `fetchZosApps`
result, which can repeat an id (see the counterexample). -/
theorem c7_amended_merge_dedup (bundled githubApps : List AppManifest)
    (hB : (bundled.map (fun a => a.id)).Nodup) :
    ((mergeApps bundled githubApps).map (fun a => a.id)).Nodup
    ∧ (∃ rest, mergeApps bundled githubApps = bundled ++ rest)
    ∧ (∀ g ∈ githubApps, ∃ a ∈ mergeApps bundled githubApps, a.id = g.id)
    ∧ (∀ a ∈ mergeApps bundled githubApps, a ∈ bundled ∨ a ∈ githubApps) :=
  ⟨mergeApps_nodup githubApps bundled hB,
   mergeApps_prefix githubApps bundled,
   fun g hg => mergeApps_covers githubApps bundled g hg,
   fun a ha => mergeApps_sources githubApps bundled a ha⟩

/-! ## Persistence (src/src/index.tsx lines 493-519)

`saveInstalledApps` writes `JSON.stringify(apps)` under the storage key;
`loadInstalledApps` reads the stored string back through `JSON.parse`.
The serialized string is modelled exactly: the printer below produces
the characters `JSON.stringify` produces for these records (keys in the
construction order of the source, `undefined` optional fields omitted,
JSON string escaping), and the parser models `JSON.parse` on the
JSON fragment that serialized app lists occupy. -/

/-- Lower-case hexadecimal digit, as emitted by `JSON.stringify` in
`\u00XX` escapes. -/
def hexDigitChar (n : Nat) : Char :=
  if n < 10 then Char.ofNat (48 + n) else Char.ofNat (87 + n)

/-- JSON escaping of one character, exactly as `JSON.stringify` emits it:
quote and backslash escaped, the five short control escapes, `\u00XX`
for other control characters, all other characters raw. -/
def escapeChar (c : Char) : List Char :=
  if c = '"' then ['\\', '"']
  else if c = '\\' then ['\\', '\\']
  else if c = Char.ofNat 8 then ['\\', 'b']
  else if c = Char.ofNat 9 then ['\\', 't']
  else if c = Char.ofNat 10 then ['\\', 'n']
  else if c = Char.ofNat 12 then ['\\', 'f']
  else if c = Char.ofNat 13 then ['\\', 'r']
  else if c.toNat < 32 then
    ['\\', 'u', '0', '0', hexDigitChar (c.toNat / 16), hexDigitChar (c.toNat % 16)]
  else [c]

def escapeList : List Char → List Char
  | [] => []
  | c :: cs => escapeChar c ++ escapeList cs

/-- A JSON string literal: `"` + escaped content + `"`. -/
def printJString (s : String) : List Char :=
  '"' :: (escapeList s.data ++ ['"'])

/-- Hexadecimal digit value accepted by a JSON `\uXXXX` escape. -/
def unhex (c : Char) : Option Nat :=
  if '0' ≤ c ∧ c ≤ '9' then some (c.toNat - 48)
  else if 'a' ≤ c ∧ c ≤ 'f' then some (c.toNat - 87)
  else if 'A' ≤ c ∧ c ≤ 'F' then some (c.toNat - 55)
  else none

/-- The single-character JSON escapes. -/
def unescape1 (c : Char) : Option Char :=
  if c = '"' then some '"'
  else if c = '\\' then some '\\'
  else if c = '/' then some '/'
  else if c = 'b' then some (Char.ofNat 8)
  else if c = 't' then some (Char.ofNat 9)
  else if c = 'n' then some (Char.ofNat 10)
  else if c = 'f' then some (Char.ofNat 12)
  else if c = 'r' then some (Char.ofNat 13)
  else none

/-- JSON string-literal body parser: consumes characters after the
opening quote up to and including the closing quote, resolving escapes;
returns the decoded content and the remaining input. -/
def parseStringBody : List Char → Option (List Char × List Char)
  | [] => none
  | c :: cs =>
    if c = '"' then some ([], cs)
    else if c = '\\' then
      match cs with
      | [] => none
      | e :: cs2 =>
        if e = 'u' then
          match cs2 with
          | h1 :: h2 :: h3 :: h4 :: cs3 =>
            match unhex h1, unhex h2, unhex h3, unhex h4 with
            | some a, some b, some c3, some d =>
              match parseStringBody cs3 with
              | some (content, rest) =>
                some (Char.ofNat (((a * 16 + b) * 16 + c3) * 16 + d) :: content, rest)
              | none => none
            | _, _, _, _ => none
          | _ => none
        else
          match unescape1 e with
          | some c2 =>
            match parseStringBody cs2 with
            | some (content, rest) => some (c2 :: content, rest)
            | none => none
          | none => none
    else
      match parseStringBody cs with
      | some (content, rest) => some (c :: content, rest)
      | none => none

theorem unhex_hexDigitChar {n : Nat} (h : n < 16) :
    unhex (hexDigitChar n) = some n := by
  interval_cases n <;> decide

theorem psb_quote (rest : List Char) :
    parseStringBody ('"' :: rest) = some ([], rest) := by
  rw [parseStringBody.eq_def]
  simp

theorem psb_esc1 {e c2 : Char} (he : ¬ e = 'u') (hesc : unescape1 e = some c2)
    {l out rest : List Char} (hl : parseStringBody l = some (out, rest)) :
    parseStringBody ('\\' :: e :: l) = some (c2 :: out, rest) := by
  rw [parseStringBody.eq_def]
  simp [he, hesc, hl]

theorem psb_escu {h1 h2 h3 h4 : Char} {a b c3 d : Nat}
    (u1 : unhex h1 = some a) (u2 : unhex h2 = some b)
    (u3 : unhex h3 = some c3) (u4 : unhex h4 = some d)
    {l out rest : List Char} (hl : parseStringBody l = some (out, rest)) :
    parseStringBody ('\\' :: 'u' :: h1 :: h2 :: h3 :: h4 :: l)
      = some (Char.ofNat (((a * 16 + b) * 16 + c3) * 16 + d) :: out, rest) := by
  rw [parseStringBody.eq_def]
  simp [u1, u2, u3, u4, hl]

theorem psb_raw {c : Char} (hq : ¬ c = '"') (hb : ¬ c = '\\')
    {l out rest : List Char} (hl : parseStringBody l = some (out, rest)) :
    parseStringBody (c :: l) = some (c :: out, rest) := by
  rw [parseStringBody.eq_def]
  simp [hq, hb, hl]

theorem parseStringBody_escape (s : List Char) (rest : List Char) :
    parseStringBody (escapeList s ++ ('"' :: rest)) = some (s, rest) := by
  induction s with
  | nil =>
    show parseStringBody ('"' :: rest) = some ([], rest)
    exact psb_quote rest
  | cons c cs ih =>
    show parseStringBody ((escapeChar c ++ escapeList cs) ++ ('"' :: rest)) = _
    rw [List.append_assoc]
    by_cases h1 : c = '"'
    · subst h1
      exact psb_esc1 (by decide) (by decide) ih
    · by_cases h2 : c = '\\'
      · subst h2
        exact psb_esc1 (by decide) (by decide) ih
      · by_cases h3 : c = Char.ofNat 8
        · subst h3
          exact psb_esc1 (by decide) (by decide) ih
        · by_cases h4 : c = Char.ofNat 9
          · subst h4
            exact psb_esc1 (by decide) (by decide) ih
          · by_cases h5 : c = Char.ofNat 10
            · subst h5
              exact psb_esc1 (by decide) (by decide) ih
            · by_cases h6 : c = Char.ofNat 12
              · subst h6
                exact psb_esc1 (by decide) (by decide) ih
              · by_cases h7 : c = Char.ofNat 13
                · subst h7
                  exact psb_esc1 (by decide) (by decide) ih
                · by_cases h8 : c.toNat < 32
                  · have hdiv : c.toNat / 16 < 16 := by omega
                    have hmod : c.toNat % 16 < 16 := Nat.mod_lt _ (by omega)
                    have h0 : unhex (hexDigitChar 0) = some 0 :=
                      unhex_hexDigitChar (by norm_num)
                    have hz : hexDigitChar 0 = '0' := by decide
                    rw [hz] at h0
                    simp only [escapeChar, if_neg h1, if_neg h2, if_neg h3,
                      if_neg h4, if_neg h5, if_neg h6, if_neg h7, if_pos h8,
                      List.cons_append, List.nil_append]
                    rw [psb_escu h0 h0 (unhex_hexDigitChar hdiv)
                      (unhex_hexDigitChar hmod) ih]
                    have hval :
                        ((0 * 16 + 0) * 16 + c.toNat / 16) * 16 + c.toNat % 16
                          = c.toNat := by
                      omega
                    rw [hval, Char.ofNat_toNat]
                  · simp only [escapeChar, if_neg h1, if_neg h2, if_neg h3,
                      if_neg h4, if_neg h5, if_neg h6, if_neg h7, if_neg h8,
                      List.cons_append, List.nil_append]
                    exact psb_raw h1 h2 ih

/-- The object braces, by code point (123 and 125). -/
def lbraceChar : Char := Char.ofNat 123

def rbraceChar : Char := Char.ofNat 125

/-- JSON string value parser: an opening quote followed by a string body. -/
def parseJString (l : List Char) : Option (String × List Char) :=
  match l with
  | [] => none
  | c :: cs =>
    if c = '"' then
      match parseStringBody cs with
      | some (content, rest) => some (String.mk content, rest)
      | none => none
    else none

theorem parseJString_print (s : String) (rest : List Char) :
    parseJString (printJString s ++ rest) = some (s, rest) := by
  show parseJString ('"' :: ((escapeList s.data ++ ['"']) ++ rest)) = _
  rw [List.append_assoc]
  show parseJString ('"' :: (escapeList s.data ++ ('"' :: rest))) = _
  simp [parseJString, parseStringBody_escape]

/-- Consume one expected character. -/
def expectChar (c : Char) (l : List Char) : Option (List Char) :=
  match l with
  | [] => none
  | x :: xs => if x = c then some xs else none

theorem expectChar_cons (c : Char) (rest : List Char) :
    expectChar c (c :: rest) = some rest := by
  simp [expectChar]

/-- Consume an expected literal character sequence. -/
def expectChars : List Char → List Char → Option (List Char)
  | [], l => some l
  | c :: cs, l =>
    match l with
    | [] => none
    | x :: xs => if x = c then expectChars cs xs else none

theorem expectChars_append (lit rest : List Char) :
    expectChars lit (lit ++ rest) = some rest := by
  induction lit with
  | nil => rfl
  | cons c cs ih => simp [expectChars, ih]

def printBool : Bool → List Char
  | true => ['t', 'r', 'u', 'e']
  | false => ['f', 'a', 'l', 's', 'e']

def parseBool (l : List Char) : Option (Bool × List Char) :=
  match expectChars ['t', 'r', 'u', 'e'] l with
  | some rest => some (true, rest)
  | none =>
    match expectChars ['f', 'a', 'l', 's', 'e'] l with
    | some rest => some (false, rest)
    | none => none

theorem parseBool_print (b : Bool) (rest : List Char) :
    parseBool (printBool b ++ rest) = some (b, rest) := by
  cases b
  · show parseBool ('f' :: 'a' :: 'l' :: 's' :: 'e' :: rest) = _
    simp [parseBool, expectChars, expectChars_append]
  · show parseBool ('t' :: 'r' :: 'u' :: 'e' :: rest) = _
    have h := expectChars_append ['t', 'r', 'u', 'e'] rest
    simp only [List.cons_append, List.nil_append] at h
    simp [parseBool, h]

/-- Serialized JSON array of strings, tail after the first element. -/
def printStrsRest : List String → List Char
  | [] => []
  | s :: ss => ',' :: (printJString s ++ printStrsRest ss)

/-- Serialized JSON array of strings, as `JSON.stringify` emits it. -/
def printStrs : List String → List Char
  | [] => ['[', ']']
  | s :: ss => '[' :: (printJString s ++ (printStrsRest ss ++ [']']))

/-- Parser for the tail of a string array (after one element): a `]`
terminator or `,` followed by another string.  `fuel` bounds the number
of elements; callers pass the input length. -/
def parseStrsRest : Nat → List Char → Option (List String × List Char)
  | _, [] => none
  | fuel, c :: cs =>
    if c = ']' then some ([], cs)
    else if c = ',' then
      match fuel with
      | 0 => none
      | fuel' + 1 =>
        match parseJString cs with
        | some (s, rest) =>
          match parseStrsRest fuel' rest with
          | some (ss, rest2) => some (s :: ss, rest2)
          | none => none
        | none => none
    else none

/-- Parser for a JSON array of strings. -/
def parseStrs (l : List Char) : Option (List String × List Char) :=
  match expectChar '[' l with
  | none => none
  | some cs =>
    match expectChar ']' cs with
    | some cs2 => some ([], cs2)
    | none =>
      match parseJString cs with
      | some (s, rest) =>
        match parseStrsRest cs.length rest with
        | some (ss, rest2) => some (s :: ss, rest2)
        | none => none
      | none => none

theorem expectChar_ne {c x : Char} (h : ¬ x = c) (xs : List Char) :
    expectChar c (x :: xs) = none := by
  simp [expectChar, h]

theorem parseStrsRest_print (ss : List String) (rest : List Char) :
    ∀ fuel, ss.length ≤ fuel →
      parseStrsRest fuel (printStrsRest ss ++ (']' :: rest)) = some (ss, rest) := by
  induction ss with
  | nil =>
    intro fuel _
    show parseStrsRest fuel (']' :: rest) = some ([], rest)
    cases fuel <;> simp [parseStrsRest]
  | cons s ss ih =>
    intro fuel hfuel
    match fuel with
    | 0 => simp at hfuel
    | fuel' + 1 =>
      show parseStrsRest (fuel' + 1)
        (',' :: ((printJString s ++ printStrsRest ss) ++ (']' :: rest))) = _
      rw [List.append_assoc]
      simp only [parseStrsRest, parseJString_print, ih fuel' (by simpa using hfuel)]
      simp

theorem printStrsRest_len (ss : List String) :
    ss.length ≤ (printStrsRest ss).length := by
  induction ss with
  | nil => simp [printStrsRest]
  | cons s ss ih =>
    simp only [printStrsRest, List.length_cons, List.length_append]
    omega

theorem parseStrs_print (ss : List String) (rest : List Char) :
    parseStrs (printStrs ss ++ rest) = some (ss, rest) := by
  match ss with
  | [] =>
    show parseStrs ('[' :: ']' :: rest) = _
    simp [parseStrs, expectChar_cons]
  | s :: ss =>
    show parseStrs ('[' :: ((printJString s ++ (printStrsRest ss ++ [']'])) ++ rest)) = _
    simp only [List.append_assoc, List.singleton_append]
    have hclose : expectChar ']' (printJString s ++ (printStrsRest ss ++ (']' :: rest)))
        = none := expectChar_ne (by decide) _
    have hfuel : ss.length ≤
        (printJString s ++ (printStrsRest ss ++ (']' :: rest))).length := by
      have h1 : ss.length ≤ (printStrsRest ss).length := printStrsRest_len ss
      simp only [List.length_append]
      omega
    simp only [parseStrs, expectChar_cons, hclose, parseJString_print,
      parseStrsRest_print ss rest _ hfuel]

/-- One serialized `"key":value` pair. -/
def printKV (k : String) (v : List Char) : List Char :=
  printJString k ++ (':' :: v)

/-- The optional `installable` and `main` fields: `JSON.stringify` omits
keys whose value is `undefined`. -/
def printOptFields (a : InstalledApp) : List Char :=
  (match a.installable with
   | some b => ',' :: printKV "installable" (printBool b)
   | none => []) ++
  (match a.main with
   | some m => ',' :: printKV "main" (printJString m)
   | none => [])

/-- The serialized form of one `InstalledApp` record, with keys in the
insertion order of the records this code constructs (the `fetchZosApps`
manifest fields followed by the three installation fields). -/
def printApp (a : InstalledApp) : List Char :=
  lbraceChar ::
  (printKV "id" (printJString a.id) ++ [','] ++
  printKV "name" (printJString a.name) ++ [','] ++
  printKV "version" (printJString a.version) ++ [','] ++
  printKV "description" (printJString a.description) ++ [','] ++
  printKV "icon" (printJString a.icon) ++ [','] ++
  printKV "category" (printJString a.category) ++ [','] ++
  printKV "author" (printJString a.author) ++ [','] ++
  printKV "repository" (printJString a.repository) ++ [','] ++
  printKV "minSdkVersion" (printJString a.minSdkVersion) ++ [','] ++
  printKV "permissions" (printStrs a.permissions) ++
  printOptFields a ++ [','] ++
  printKV "installedAt" (printJString a.installedAt) ++ [','] ++
  printKV "installedVersion" (printJString a.installedVersion) ++ [','] ++
  printKV "source" (printJString a.source) ++ [rbraceChar])

/-- Parse one `"key":"string value"` pair with the given key. -/
def parseKeyedStr (k : String) (l : List Char) : Option (String × List Char) :=
  match expectChars (printJString k) l with
  | none => none
  | some l2 =>
    match expectChar ':' l2 with
    | none => none
    | some l3 => parseJString l3

theorem parseKeyedStr_print (k v : String) (rest : List Char) :
    parseKeyedStr k (printJString k ++ (':' :: (printJString v ++ rest)))
      = some (v, rest) := by
  simp only [parseKeyedStr, expectChars_append, expectChar_cons, parseJString_print]

/-- Parse the trailing `installedAt`, `installedVersion`, `source`
fields and the closing brace, assembling the record. -/
def parseAppTail (vId vName vVersion vDesc vIcon vCat vAuth vRepo vMin : String)
    (perms : List String) (oinst : Option Bool) (omain : Option String)
    (l : List Char) : Option (InstalledApp × List Char) :=
  match parseKeyedStr "installedAt" l with
  | none => none
  | some (vAt, l) =>
  match expectChar ',' l with
  | none => none
  | some l =>
  match parseKeyedStr "installedVersion" l with
  | none => none
  | some (vIv, l) =>
  match expectChar ',' l with
  | none => none
  | some l =>
  match parseKeyedStr "source" l with
  | none => none
  | some (vSrc, l) =>
  match expectChar rbraceChar l with
  | none => none
  | some l =>
    some ({ id := vId, name := vName, version := vVersion, description := vDesc,
            icon := vIcon, category := vCat, author := vAuth, repository := vRepo,
            minSdkVersion := vMin, permissions := perms, installable := oinst,
            main := omain, installedAt := vAt, installedVersion := vIv,
            source := vSrc }, l)

/-- Parse one serialized `InstalledApp` object: the fixed key sequence
the printer emits, with the `installable` and `main` keys optional. -/
def parseApp (l : List Char) : Option (InstalledApp × List Char) :=
  match expectChar lbraceChar l with
  | none => none
  | some l =>
  match parseKeyedStr "id" l with
  | none => none
  | some (vId, l) =>
  match expectChar ',' l with
  | none => none
  | some l =>
  match parseKeyedStr "name" l with
  | none => none
  | some (vName, l) =>
  match expectChar ',' l with
  | none => none
  | some l =>
  match parseKeyedStr "version" l with
  | none => none
  | some (vVersion, l) =>
  match expectChar ',' l with
  | none => none
  | some l =>
  match parseKeyedStr "description" l with
  | none => none
  | some (vDesc, l) =>
  match expectChar ',' l with
  | none => none
  | some l =>
  match parseKeyedStr "icon" l with
  | none => none
  | some (vIcon, l) =>
  match expectChar ',' l with
  | none => none
  | some l =>
  match parseKeyedStr "category" l with
  | none => none
  | some (vCat, l) =>
  match expectChar ',' l with
  | none => none
  | some l =>
  match parseKeyedStr "author" l with
  | none => none
  | some (vAuth, l) =>
  match expectChar ',' l with
  | none => none
  | some l =>
  match parseKeyedStr "repository" l with
  | none => none
  | some (vRepo, l) =>
  match expectChar ',' l with
  | none => none
  | some l =>
  match parseKeyedStr "minSdkVersion" l with
  | none => none
  | some (vMin, l) =>
  match expectChar ',' l with
  | none => none
  | some l =>
  match expectChars (printJString "permissions") l with
  | none => none
  | some l =>
  match expectChar ':' l with
  | none => none
  | some l =>
  match parseStrs l with
  | none => none
  | some (perms, l) =>
  match expectChar ',' l with
  | none => none
  | some l =>
  match expectChars (printJString "installable") l with
  | some l2 =>
    (match expectChar ':' l2 with
     | none => none
     | some l3 =>
     match parseBool l3 with
     | none => none
     | some (b, l4) =>
     match expectChar ',' l4 with
     | none => none
     | some l5 =>
     match expectChars (printJString "main") l5 with
     | some l6 =>
       (match expectChar ':' l6 with
        | none => none
        | some l7 =>
        match parseJString l7 with
        | none => none
        | some (m, l8) =>
        match expectChar ',' l8 with
        | none => none
        | some l9 =>
          parseAppTail vId vName vVersion vDesc vIcon vCat vAuth vRepo vMin
            perms (some b) (some m) l9)
     | none =>
       parseAppTail vId vName vVersion vDesc vIcon vCat vAuth vRepo vMin
         perms (some b) none l5)
  | none =>
  match expectChars (printJString "main") l with
  | some l2 =>
    (match expectChar ':' l2 with
     | none => none
     | some l3 =>
     match parseJString l3 with
     | none => none
     | some (m, l4) =>
     match expectChar ',' l4 with
     | none => none
     | some l5 =>
       parseAppTail vId vName vVersion vDesc vIcon vCat vAuth vRepo vMin
         perms none (some m) l5)
  | none =>
    parseAppTail vId vName vVersion vDesc vIcon vCat vAuth vRepo vMin
      perms none none l

theorem key_installable_vs_main (X : List Char) :
    expectChars (printJString "installable") (printJString "main" ++ X) = none := by
  rfl

theorem key_installable_vs_installedAt (X : List Char) :
    expectChars (printJString "installable") (printJString "installedAt" ++ X) = none := by
  rfl

theorem key_main_vs_installedAt (X : List Char) :
    expectChars (printJString "main") (printJString "installedAt" ++ X) = none := by
  rfl

theorem parseAppTail_print (vId vName vVersion vDesc vIcon vCat vAuth vRepo vMin : String)
    (perms : List String) (oinst : Option Bool) (omain : Option String)
    (vAt vIv vSrc : String) (rest : List Char) :
    parseAppTail vId vName vVersion vDesc vIcon vCat vAuth vRepo vMin perms oinst omain
      (printJString "installedAt" ++ (':' :: (printJString vAt ++
        (',' :: (printJString "installedVersion" ++ (':' :: (printJString vIv ++
        (',' :: (printJString "source" ++ (':' :: (printJString vSrc ++
        (rbraceChar :: rest))))))))))))
      = some ({ id := vId, name := vName, version := vVersion, description := vDesc,
                icon := vIcon, category := vCat, author := vAuth, repository := vRepo,
                minSdkVersion := vMin, permissions := perms, installable := oinst,
                main := omain, installedAt := vAt, installedVersion := vIv,
                source := vSrc }, rest) := by
  simp only [parseAppTail, parseKeyedStr_print, expectChar_cons]

theorem parseApp_print (a : InstalledApp) (rest : List Char) :
    parseApp (printApp a ++ rest) = some (a, rest) := by
  obtain ⟨⟨vId, vName, vVersion, vDesc, vIcon, vCat, vAuth, vRepo, vMin,
    perms, oinst, omain⟩, vAt, vIv, vSrc⟩ := a
  cases oinst <;> cases omain <;>
    (simp only [printApp, printOptFields, printKV, List.append_assoc,
      List.cons_append, List.singleton_append, List.nil_append, List.append_nil]
     simp only [parseApp, expectChar_cons, parseKeyedStr_print, expectChars_append,
      parseStrs_print, parseBool_print, parseJString_print,
      key_installable_vs_main, key_installable_vs_installedAt,
      key_main_vs_installedAt, parseAppTail_print])

/-- Serialized app array, tail after the first element. -/
def printAppsRest : List InstalledApp → List Char
  | [] => []
  | a :: as => ',' :: (printApp a ++ printAppsRest as)

/-- `JSON.stringify(apps)` as a character list. -/
def printApps : List InstalledApp → List Char
  | [] => ['[', ']']
  | a :: as => '[' :: (printApp a ++ (printAppsRest as ++ [']']))

/-- Parser for the tail of the app array; `fuel` bounds the number of
elements, callers pass the input length. -/
def parseAppsRest : Nat → List Char → Option (List InstalledApp × List Char)
  | _, [] => none
  | fuel, c :: cs =>
    if c = ']' then some ([], cs)
    else if c = ',' then
      match fuel with
      | 0 => none
      | fuel' + 1 =>
        match parseApp cs with
        | some (a, rest) =>
          match parseAppsRest fuel' rest with
          | some (as, rest2) => some (a :: as, rest2)
          | none => none
        | none => none
    else none

/-- Parser for a serialized app array. -/
def parseAppsTop (l : List Char) : Option (List InstalledApp × List Char) :=
  match expectChar '[' l with
  | none => none
  | some cs =>
    match expectChar ']' cs with
    | some cs2 => some ([], cs2)
    | none =>
      match parseApp cs with
      | some (a, rest) =>
        match parseAppsRest cs.length rest with
        | some (as, rest2) => some (a :: as, rest2)
        | none => none
      | none => none

theorem printAppsRest_len (as : List InstalledApp) :
    as.length ≤ (printAppsRest as).length := by
  induction as with
  | nil => simp [printAppsRest]
  | cons a as ih =>
    simp only [printAppsRest, List.length_cons, List.length_append]
    omega

theorem parseAppsRest_print (as : List InstalledApp) (rest : List Char) :
    ∀ fuel, as.length ≤ fuel →
      parseAppsRest fuel (printAppsRest as ++ (']' :: rest)) = some (as, rest) := by
  induction as with
  | nil =>
    intro fuel _
    show parseAppsRest fuel (']' :: rest) = some ([], rest)
    cases fuel <;> simp [parseAppsRest]
  | cons a as ih =>
    intro fuel hfuel
    match fuel with
    | 0 => simp at hfuel
    | fuel' + 1 =>
      show parseAppsRest (fuel' + 1)
        (',' :: ((printApp a ++ printAppsRest as) ++ (']' :: rest))) = _
      rw [List.append_assoc]
      simp only [parseAppsRest, parseApp_print, ih fuel' (by simpa using hfuel)]
      simp

theorem parseAppsTop_print (S : List InstalledApp) (rest : List Char) :
    parseAppsTop (printApps S ++ rest) = some (S, rest) := by
  match S with
  | [] =>
    show parseAppsTop ('[' :: ']' :: rest) = _
    simp [parseAppsTop, expectChar_cons]
  | a :: as =>
    show parseAppsTop ('[' :: ((printApp a ++ (printAppsRest as ++ [']'])) ++ rest)) = _
    simp only [List.append_assoc, List.singleton_append]
    obtain ⟨t, ht⟩ :
        ∃ t, printApp a ++ (printAppsRest as ++ (']' :: rest)) = lbraceChar :: t :=
      ⟨_, rfl⟩
    have hclose : expectChar ']' (printApp a ++ (printAppsRest as ++ (']' :: rest)))
        = none := by
      rw [ht]
      exact expectChar_ne (by decide) _
    have hfuel : as.length ≤
        (printApp a ++ (printAppsRest as ++ (']' :: rest))).length := by
      have h1 : as.length ≤ (printAppsRest as).length := printAppsRest_len as
      simp only [List.length_append]
      omega
    simp only [parseAppsTop, expectChar_cons, hclose, parseApp_print,
      parseAppsRest_print as rest _ hfuel]

/-- `JSON.stringify(apps)`, the string written by `saveInstalledApps`
(src/src/index.tsx line 515). -/
def stringifyApps (apps : List InstalledApp) : String :=
  String.mk (printApps apps)

/-- Models `JSON.parse(stored)` followed by the unchecked use of the
result as `InstalledApp[]` (src/src/index.tsx line 499): the stored
string is parsed on the JSON fragment that serialized app lists occupy;
any other stored content is modelled as a parse failure. -/
def jsonParseApps (s : String) : Option (List InstalledApp) :=
  match parseAppsTop s.data with
  | some (apps, []) => some apps
  | _ => none

/-- `saveInstalledApps` (src/src/index.tsx lines 511-519), modelled as
the store-state it leaves behind: the prior snapshot is fully
overwritten with `JSON.stringify(apps)`. -/
def saveInstalledApps (apps : List InstalledApp) : Option String :=
  some (stringifyApps apps)

/-- `loadInstalledApps` (src/src/index.tsx lines 493-506): an absent or
empty stored value yields `[]` (falsy check), a parse failure is caught
and yields `[]`, otherwise the parsed records are returned. -/
def loadInstalledApps (store : Option String) : List InstalledApp :=
  match store with
  | none => []
  | some s =>
    if s = "" then []
    else
      match jsonParseApps s with
      | some apps => apps
      | none => []

theorem printApps_ne_nil (S : List InstalledApp) : printApps S ≠ [] := by
  cases S <;> simp [printApps]

theorem jsonParseApps_stringify (S : List InstalledApp) :
    jsonParseApps (stringifyApps S) = some S := by
  have h : parseAppsTop (printApps S) = some (S, []) := by
    have := parseAppsTop_print S []
    rwa [List.append_nil] at this
  simp only [jsonParseApps, stringifyApps, h]

theorem stringifyApps_ne_empty (S : List InstalledApp) : stringifyApps S ≠ "" := by
  intro h
  exact printApps_ne_nil S (congrArg String.data h)

/-- C9: persistence round-trip — `loadInstalledApps` after
`saveInstalledApps S` reproduces `S` field-for-field, and saving what
was just loaded leaves the stored representation (the serialized
string) unchanged. -/
theorem c9_persistence_roundtrip (S : List InstalledApp) :
    loadInstalledApps (saveInstalledApps S) = S
    ∧ saveInstalledApps (loadInstalledApps (saveInstalledApps S))
        = saveInstalledApps S := by
  have hload : loadInstalledApps (saveInstalledApps S) = S := by
    simp only [loadInstalledApps, saveInstalledApps,
      if_neg (stringifyApps_ne_empty S), jsonParseApps_stringify]
  exact ⟨hload, by rw [hload]⟩

/-! ## Engine transitions (src/src/index.tsx lines 559-614)

React state, the persisted snapshot and the dispatched window events are
modelled as one explicit state record; each handler is the state
transformer the source performs. -/

/-- The `CustomEvent`s dispatched on `window`:
`zos:app-installed` (carrying the new record), `zos:app-uninstalled`
(carrying the id) and `zos:app-updated` (carrying the id). -/
inductive AppEvent where
  | installedEv : InstalledApp → AppEvent
  | uninstalledEv : String → AppEvent
  | updatedEv : String → AppEvent
deriving DecidableEq, Repr

/-- Component state (`installedApps`, `updates`), the persisted
snapshot (`store`, the raw localStorage string) and the list of
dispatched events. -/
structure EngineState where
  installedApps : List InstalledApp
  updates : List AppUpdate
  store : Option String
  events : List AppEvent
deriving DecidableEq, Repr

/-- The record constructed by `handleInstall` (lines 562-567):
`\x7b ...app, installedAt: now, installedVersion: app.version,
source: 'github' \x7d`. -/
def mkInstalledRecord (app : AppManifest) (now : String) : InstalledApp :=
  { toAppManifest := app
    installedAt := now
    installedVersion := app.version
    source := "github" }

/-- `handleInstall` (src/src/index.tsx lines 559-582): appends the new
record (`[...installedApps, installedApp]`), persists, dispatches
`zos:app-installed`.  `now` stands for `new Date().toISOString()`. -/
def handleInstall (app : AppManifest) (now : String) (st : EngineState) : EngineState :=
  let installedApp := mkInstalledRecord app now
  let newInstalledApps := st.installedApps ++ [installedApp]
  { st with installedApps := newInstalledApps
            store := saveInstalledApps newInstalledApps
            events := st.events ++ [AppEvent.installedEv installedApp] }

/-- Models `installedApps.filter(a => a.id !== id)`. -/
def removeId : List InstalledApp → String → List InstalledApp
  | [], _ => []
  | a :: rest, x => if a.id = x then removeId rest x else a :: removeId rest x

/-- `handleUninstall` (src/src/index.tsx lines 584-592): filters out
every record with the id, persists, dispatches `zos:app-uninstalled` —
with no check of the record's `source` and no check that the id was
present. -/
def handleUninstall (idv : String) (st : EngineState) : EngineState :=
  let newInstalledApps := removeId st.installedApps idv
  { st with installedApps := newInstalledApps
            store := saveInstalledApps newInstalledApps
            events := st.events ++ [AppEvent.uninstalledEv idv] }

/-- The per-record map of `handleUpdate` (lines 597-601): a matching id
gets `installedVersion` and `version` set to the target version, any
other record is returned unchanged. -/
def updateRecord (u : AppUpdate) (a : InstalledApp) : InstalledApp :=
  if a.id = u.id then
    { a with installedVersion := u.latestVersion, version := u.latestVersion }
  else a

/-- Models `updates.filter(u => u.id !== update.id)`. -/
def removeUpdate : List AppUpdate → String → List AppUpdate
  | [], _ => []
  | u :: rest, x => if u.id = x then removeUpdate rest x else u :: removeUpdate rest x

/-- `handleUpdate` (src/src/index.tsx lines 594-614): maps the version
change over the installed records, persists, removes the candidate from
`updates`, dispatches `zos:app-updated`. -/
def handleUpdate (u : AppUpdate) (st : EngineState) : EngineState :=
  let newInstalledApps := st.installedApps.map (updateRecord u)
  { st with installedApps := newInstalledApps
            store := saveInstalledApps newInstalledApps
            updates := removeUpdate st.updates u.id
            events := st.events ++ [AppEvent.updatedEv u.id] }

/-- How many installed records carry the given id. -/
def countId : List InstalledApp → String → Nat
  | [], _ => 0
  | a :: rest, x => (if a.id = x then 1 else 0) + countId rest x

theorem countId_append (l1 l2 : List InstalledApp) (x : String) :
    countId (l1 ++ l2) x = countId l1 x + countId l2 x := by
  induction l1 with
  | nil => simp [countId]
  | cons a rest ih =>
    show (if a.id = x then 1 else 0) + countId (rest ++ l2) x
      = ((if a.id = x then 1 else 0) + countId rest x) + countId l2 x
    rw [ih]
    omega

theorem mem_removeId {l : List InstalledApp} {x : String} {a : InstalledApp} :
    a ∈ removeId l x ↔ a ∈ l ∧ ¬ a.id = x := by
  induction l with
  | nil => simp [removeId]
  | cons b rest ih =>
    by_cases hb : b.id = x
    · simp only [removeId, if_pos hb, ih, List.mem_cons]
      constructor
      · rintro ⟨hm, hx⟩
        exact ⟨Or.inr hm, hx⟩
      · rintro ⟨hm | hm, hx⟩
        · subst hm
          exact absurd hb hx
        · exact ⟨hm, hx⟩
    · simp only [removeId, if_neg hb, List.mem_cons, ih]
      constructor
      · rintro (rfl | ⟨hm, hx⟩)
        · exact ⟨Or.inl rfl, hb⟩
        · exact ⟨Or.inr hm, hx⟩
      · rintro ⟨rfl | hm, hx⟩
        · exact Or.inl rfl
        · exact Or.inr ⟨hm, hx⟩

theorem removeId_eq_self {l : List InstalledApp} {x : String}
    (h : ∀ a ∈ l, a.id ≠ x) : removeId l x = l := by
  induction l with
  | nil => rfl
  | cons a rest ih =>
    rw [removeId, if_neg (h a (List.mem_cons_self a rest)),
      ih (fun b hb => h b (List.mem_cons_of_mem a hb))]

theorem mem_removeUpdate {l : List AppUpdate} {x : String} {u : AppUpdate} :
    u ∈ removeUpdate l x ↔ u ∈ l ∧ ¬ u.id = x := by
  induction l with
  | nil => simp [removeUpdate]
  | cons b rest ih =>
    by_cases hb : b.id = x
    · simp only [removeUpdate, if_pos hb, ih, List.mem_cons]
      constructor
      · rintro ⟨hm, hx⟩
        exact ⟨Or.inr hm, hx⟩
      · rintro ⟨hm | hm, hx⟩
        · subst hm
          exact absurd hb hx
        · exact ⟨hm, hx⟩
    · simp only [removeUpdate, if_neg hb, List.mem_cons, ih]
      constructor
      · rintro (rfl | ⟨hm, hx⟩)
        · exact ⟨Or.inl rfl, hb⟩
        · exact ⟨Or.inr hm, hx⟩
      · rintro ⟨rfl | hm, hx⟩
        · exact Or.inl rfl
        · exact Or.inr ⟨hm, hx⟩

theorem mkInstalledRecord_id (app : AppManifest) (now : String) :
    (mkInstalledRecord app now).id = app.id := rfl

theorem updateRecord_id (u : AppUpdate) (a : InstalledApp) :
    (updateRecord u a).id = a.id := by
  by_cases h : a.id = u.id <;> simp [updateRecord, h]

/-- C1 (amended): `handleInstall` appends the freshly built record
unconditionally — it does not replace a prior record with the same id.
After installing a manifest, the installed list is the old list plus
the new record at the end, the number of records carrying the
manifest's id grows by exactly one (so installing an already-installed
id produces a duplicate and the installed count increases), the
snapshot of the appended list is persisted, and `zos:app-installed`
fires with the new record.  (The discover view avoids this at the UI
level by offering install only for ids that are not yet installed.) -/
theorem c1_amended_install_appends (st : EngineState) (app : AppManifest) (now : String) :
    (handleInstall app now st).installedApps
        = st.installedApps ++ [mkInstalledRecord app now]
    ∧ countId (handleInstall app now st).installedApps app.id
        = countId st.installedApps app.id + 1
    ∧ (handleInstall app now st).store
        = saveInstalledApps (st.installedApps ++ [mkInstalledRecord app now])
    ∧ (handleInstall app now st).events
        = st.events ++ [AppEvent.installedEv (mkInstalledRecord app now)] := by
  refine ⟨rfl, ?_, rfl, rfl⟩
  show countId (st.installedApps ++ [mkInstalledRecord app now]) app.id = _
  rw [countId_append]
  simp [countId, mkInstalledRecord_id]

/-- C2 (amended): `handleUninstall` has no policy check on `source` —
it removes the matching record even when that record is `bundled`, it
persists the filtered list, and it dispatches `zos:app-uninstalled`.
(Only the registry-based variant's installed tab hides the button for
bundled records; this component's handler and installed tab do not.) -/
theorem c2_amended_uninstall_removes_bundled (st : EngineState) (r : InstalledApp)
    (_hmem : r ∈ st.installedApps) (_hsrc : r.source = "bundled") :
    r ∉ (handleUninstall r.id st).installedApps
    ∧ (∀ a ∈ (handleUninstall r.id st).installedApps, a.id ≠ r.id)
    ∧ (handleUninstall r.id st).store
        = saveInstalledApps ((handleUninstall r.id st).installedApps)
    ∧ (handleUninstall r.id st).events
        = st.events ++ [AppEvent.uninstalledEv r.id] := by
  refine ⟨?_, ?_, rfl, rfl⟩
  · intro hmem2
    exact (mem_removeId.mp hmem2).2 rfl
  · intro a ha
    exact (mem_removeId.mp ha).2

/-- C3 (amended): `handleInstall` never inspects `installable` — even a
manifest with `installable = false` is installed: its record is
appended to the installed set, a record with its id now exists, and the
new snapshot is persisted. -/
theorem c3_amended_install_ignores_installable (st : EngineState)
    (app : AppManifest) (now : String) (_h : app.installable = some false) :
    (handleInstall app now st).installedApps
        = st.installedApps ++ [mkInstalledRecord app now]
    ∧ (∃ a ∈ (handleInstall app now st).installedApps, a.id = app.id)
    ∧ (handleInstall app now st).store
        = saveInstalledApps (st.installedApps ++ [mkInstalledRecord app now]) := by
  refine ⟨rfl, ⟨mkInstalledRecord app now, ?_, mkInstalledRecord_id app now⟩, rfl⟩
  show mkInstalledRecord app now ∈ st.installedApps ++ [mkInstalledRecord app now]
  exact List.mem_append_right _ (List.mem_singleton_self _)

/-- C8: `handleUpdate` on a target `(x, v)` sets the matching record's
`installedVersion` and `version` to `v` while keeping all its other
fields, leaves every record with a different id unchanged, keeps the
list length, persists the new snapshot, removes exactly the candidates
with id `x` from the update set, and dispatches `zos:app-updated`
carrying `x`. -/
theorem c8_update_transition (st : EngineState) (u : AppUpdate) (r : InstalledApp)
    (hnd : (st.installedApps.map (fun a => a.id)).Nodup)
    (hr : r ∈ st.installedApps) (hid : r.id = u.id) :
    ({ r with installedVersion := u.latestVersion, version := u.latestVersion }
        ∈ (handleUpdate u st).installedApps)
    ∧ (∀ a ∈ st.installedApps, a.id ≠ u.id → a ∈ (handleUpdate u st).installedApps)
    ∧ (handleUpdate u st).installedApps.length = st.installedApps.length
    ∧ (∀ a ∈ (handleUpdate u st).installedApps, a.id = u.id →
        a = { r with installedVersion := u.latestVersion, version := u.latestVersion })
    ∧ (handleUpdate u st).store = saveInstalledApps ((handleUpdate u st).installedApps)
    ∧ (∀ w ∈ (handleUpdate u st).updates, w.id ≠ u.id)
    ∧ (∀ w ∈ st.updates, w.id ≠ u.id → w ∈ (handleUpdate u st).updates)
    ∧ (handleUpdate u st).events = st.events ++ [AppEvent.updatedEv u.id] := by
  refine ⟨?_, ?_, by simp [handleUpdate], ?_, rfl, ?_, ?_, rfl⟩
  · have : updateRecord u r
        = { r with installedVersion := u.latestVersion, version := u.latestVersion } := by
      simp [updateRecord, hid]
    exact this ▸ List.mem_map.mpr ⟨r, hr, rfl⟩
  · intro a ha hne
    have : updateRecord u a = a := by
      simp [updateRecord, hne]
    exact this ▸ List.mem_map.mpr ⟨a, ha, rfl⟩
  · intro a ha haid
    obtain ⟨b, hb, hba⟩ := List.mem_map.mp ha
    by_cases hbid : b.id = u.id
    · have hb_eq : b = r :=
        List.inj_on_of_nodup_map hnd hb hr (by rw [hbid, hid])
      subst hb_eq
      rw [← hba]
      simp [updateRecord, hbid]
    · have : updateRecord u b = b := by
        simp [updateRecord, hbid]
      rw [this] at hba
      subst hba
      exact absurd haid hbid
  · intro w hw
    exact (mem_removeUpdate.mp hw).2
  · intro w hw hne
    exact mem_removeUpdate.mpr ⟨hw, hne⟩

/-- C10: `handleUninstall` of an id with no matching record leaves the
installed list unchanged, but still overwrites the persisted snapshot
with the (unchanged) list and still dispatches `zos:app-uninstalled`
carrying the id — the no-op on the record set is not a no-op on
persistence or notification. -/
theorem c10_uninstall_unknown_id (st : EngineState) (x : String)
    (h : ∀ a ∈ st.installedApps, a.id ≠ x) :
    (handleUninstall x st).installedApps = st.installedApps
    ∧ (handleUninstall x st).store = saveInstalledApps st.installedApps
    ∧ (handleUninstall x st).events = st.events ++ [AppEvent.uninstalledEv x] := by
  have hrm : removeId st.installedApps x = st.installedApps := removeId_eq_self h
  refine ⟨hrm, ?_, rfl⟩
  show saveInstalledApps (removeId st.installedApps x) = _
  rw [hrm]

/-! ## Concrete instances for counterexamples and witnesses -/

/-- A sample manifest with id `x`. -/
def mA : AppManifest :=
  { id := "x", name := "Alpha", version := "1.0.0", description := "demo app"
    icon := "I", category := "utilities", author := "au", repository := "repo"
    minSdkVersion := "4.0.0", permissions := ["network"]
    installable := some true, main := some "src/index.tsx" }

/-- A second manifest with the same id `x` and a newer version. -/
def mA2 : AppManifest :=
  { mA with version := "1.1.0", name := "Alpha second" }

/-- A manifest explicitly marked non-installable. -/
def mC : AppManifest :=
  { mA with id := "y", installable := some false }

/-- The installed record produced by installing `mA` at time `t0`. -/
def rA : InstalledApp := mkInstalledRecord mA "t0"

/-- An installed record with `source = bundled` and id `x`. -/
def rB : InstalledApp :=
  { toAppManifest := mA, installedAt := "t0", installedVersion := "1.0.0"
    source := "bundled" }

/-- State with the `mA` record installed. -/
def exSt1 : EngineState :=
  { installedApps := [rA], updates := [], store := none, events := [] }

/-- State with the bundled record installed. -/
def exStB : EngineState :=
  { installedApps := [rB], updates := [], store := none, events := [] }

/-- Empty first-run state. -/
def exStC : EngineState :=
  { installedApps := [], updates := [], store := none, events := [] }

/-- An update target for id `x`. -/
def uU : AppUpdate :=
  { id := "x", currentVersion := "1.0.0", latestVersion := "1.1.0"
    releaseNotes := none }

/-- A `zos` section declaring id `dup.app`. -/
def zDup : ZosMeta :=
  { id := some "dup.app", name := some "Dup", icon := some "I"
    category := some "utilities", minSdkVersion := some "4.0.0"
    permissions := some ["network"], installable := some true }

/-- A package carrying `zDup` at version 1.0.0. -/
def pkgDup : Pkg :=
  { zos := some zDup, name := some "dup-one", version := some "1.0.0"
    description := some "first copy", author := some "au"
    main := some "src/index.tsx" }

/-- A second package carrying the same `zos` id at version 2.0.0. -/
def pkgDup2 : Pkg :=
  { pkgDup with name := some "dup-two", version := some "2.0.0" }

/-- A fetch oracle: repositories `r1` and `r2` both declare the id
`dup.app`; every other repository fetch throws. -/
def fetchDup : String → FetchOutcome := fun n =>
  if n = "r1" then FetchOutcome.ok pkgDup
  else if n = "r2" then FetchOutcome.ok pkgDup2
  else FetchOutcome.throws

/-- C1 (counterexample): with the `mA` record already installed,
installing the manifest `mA` again does not replace it — the installed
count changes and two records now carry id `x`, refuting
replace-on-identity at this input. -/
theorem c1_counterexample_install_duplicates :
    ¬ ((handleInstall mA "t1" exSt1).installedApps.length
          = exSt1.installedApps.length
       ∧ countId (handleInstall mA "t1" exSt1).installedApps mA.id = 1) := by
  decide

/-- C2 (counterexample): uninstalling id `x` while the installed set
holds the bundled record `rB` with that id is not refused: the record
is gone afterwards and a `zos:app-uninstalled` notification is emitted,
refuting the claim at this input. -/
theorem c2_counterexample_bundled_removed :
    ¬ (rB ∈ (handleUninstall "x" exStB).installedApps
       ∧ (handleUninstall "x" exStB).events = exStB.events) := by
  decide

/-- C3 (counterexample): installing the manifest `mC`, whose
`installable` is `false`, is not rejected: the installed set changes,
the persisted snapshot changes, and a record with id `y` is created. -/
theorem c3_counterexample_installable_false_installed :
    ¬ ((handleInstall mC "t0" exStC).installedApps = exStC.installedApps
       ∧ (handleInstall mC "t0" exStC).store = exStC.store
       ∧ ∀ a ∈ (handleInstall mC "t0" exStC).installedApps, a.id ≠ mC.id) := by
  decide

/-- C7 (counterexample): the standalone `loadData` stores the raw
`fetchZosApps` result as the available listing; when two repositories
both declare the id `dup.app`, that listing contains two manifests with
the same id, refuting at-most-one-manifest-per-id at this input. -/
theorem c7_counterexample_duplicate_ids :
    ¬ (((fetchZosApps (some [⟨"r1"⟩, ⟨"r2"⟩]) fetchDup).filter
          (fun a => a.id == "dup.app")).length ≤ 1) := by
  decide

/-- C2 (witness): the amended theorem applied to the bundled record
`rB` in `exStB`. -/
theorem c2_witness :
    rB ∈ exStB.installedApps ∧ rB.source = "bundled"
    ∧ rB ∉ (handleUninstall rB.id exStB).installedApps :=
  ⟨by decide, rfl,
    (c2_amended_uninstall_removes_bundled exStB rB (by decide) rfl).1⟩

/-- C3 (witness): the amended theorem applied to the non-installable
manifest `mC` in the empty state. -/
theorem c3_witness :
    mC.installable = some false
    ∧ (handleInstall mC "t0" exStC).installedApps
        = exStC.installedApps ++ [mkInstalledRecord mC "t0"] :=
  ⟨rfl, (c3_amended_install_ignores_installable exStC mC "t0" rfl).1⟩

/-- C4 (witness): the candidate-set characterization applied to one
installed record at version 1.0.0 and one remote manifest at 1.1.0. -/
theorem c4_witness :
    (([rA].map (fun r => r.id)).Nodup) ∧ (([mA2].map (fun m => m.id)).Nodup)
    ∧ ((∃ u ∈ checkForUpdates [rA] [mA2], u.id = "x") ↔
        ∃ r ∈ [rA], r.id = "x" ∧ ∃ m ∈ [mA2], m.id = "x" ∧
          compareVersions r.installedVersion m.version < 0) :=
  ⟨by decide, by decide,
    (c4_update_candidates_iff [rA] [mA2] "x" (by decide) (by decide)).1⟩

/-- C6 (witness): discovery under the `fetchDup` oracle — the failed
top-level listing yields `[]`, the throwing repository `r3` is
swallowed, and the succeeding repository `r1` contributes its
manifest. -/
theorem c6_witness :
    fetchZosApps none fetchDup = []
    ∧ fetchZosApps (some [⟨"r1"⟩, ⟨"r3"⟩]) fetchDup
        = fetchZosApps (some [⟨"r1"⟩]) fetchDup
    ∧ repoManifest "r1" pkgDup zDup ∈ fetchZosApps (some [⟨"r1"⟩, ⟨"r3"⟩]) fetchDup :=
  ⟨(c6_discovery_partial_failure fetchDup).1,
   (c6_discovery_partial_failure fetchDup).2.1 [⟨"r1"⟩] [] ⟨"r3"⟩ (Or.inl rfl),
   (c6_discovery_partial_failure fetchDup).2.2 [⟨"r1"⟩, ⟨"r3"⟩] ⟨"r1"⟩ pkgDup zDup
     (by decide) (by decide) rfl rfl⟩

/-- C7 (witness): the amended merge theorem applied to one bundled
manifest and one fetched manifest sharing its id. -/
theorem c7_witness :
    (([mA].map (fun a => a.id)).Nodup)
    ∧ ((mergeApps [mA] [mA2]).map (fun a => a.id)).Nodup :=
  ⟨by decide, (c7_amended_merge_dedup [mA] [mA2] (by decide)).1⟩

/-- C8 (witness): the update transition applied to the record `rA`
(id `x`, version 1.0.0) with target version 1.1.0. -/
theorem c8_witness :
    ((exSt1.installedApps.map (fun a => a.id)).Nodup)
    ∧ rA ∈ exSt1.installedApps ∧ rA.id = uU.id
    ∧ ({ rA with installedVersion := uU.latestVersion, version := uU.latestVersion }
        ∈ (handleUpdate uU exSt1).installedApps) :=
  ⟨by decide, by decide, rfl,
    (c8_update_transition exSt1 uU rA (by decide) (by decide) rfl).1⟩

/-- C10 (witness): uninstalling the unknown id `nope` from `exStB`. -/
theorem c10_witness :
    (∀ a ∈ exStB.installedApps, a.id ≠ "nope")
    ∧ (handleUninstall "nope" exStB).installedApps = exStB.installedApps :=
  ⟨by decide, (c10_uninstall_unknown_id exStB "nope" (by decide)).1⟩

end ZAppStore
